import Mathlib

/-!
Verification of the simplecc dictionary-based text substitution engine.

The embedding models strings as lists of Unicode scalar values
(`List Char`), which matches the Rust code's per-character traversal:
every byte-index slice the code takes is at a character boundary, so the
char-level model is exact.  The `HashMap<char, DictNode>` child map is
modelled as an association list with unique keys (lookup finds the first,
and only, entry for a key).  The rewrite loop, which diverges in Rust if
an empty-key rule is present, is modelled with explicit fuel: `none`
means the loop did not finish within the given number of iterations.
-/

set_option autoImplicit false

abbrev Str := List Char

/-- Split a list at the first occurrence of `sep`: returns the part
before and the part after it, or `none` when `sep` does not occur.
Models Rust's `splitn(2, sep)` yielding two columns (where the iterator
yields a second item exactly when `sep` occurs). -/
def splitFirst (sep : Char) : Str → Option (Str × Str)
  | [] => none
  | c :: cs =>
    if c = sep then some ([], cs)
    else (splitFirst sep cs).map (fun p => (c :: p.1, p.2))

/-- Rust `str::lines`: accumulator-based splitting on newline, stripping
a carriage return only from lines terminated by a newline. -/
def splitLinesAux (acc : Str) : Str → List Str
  | [] => [acc.reverse]
  | c :: cs =>
    if c = '\n' then
      (if acc.reverse.getLast? = some '\r' then acc.reverse.dropLast else acc.reverse) ::
        (match cs with
         | [] => []
         | _ :: _ => splitLinesAux [] cs)
    else splitLinesAux (c :: acc) cs

/-- Rust `str::lines` on a character list. -/
def splitLines : Str → List Str
  | [] => []
  | s => splitLinesAux [] s

/-- One line of rule text parsed into at most one `(key, value)` rule:
split on the first TAB (no TAB: no rule), then keep the value column up
to the first SPACE.  Mirrors the `filter_map` closure in
`Dict::load_lines`. -/
def parseLine (line : Str) : Option (Str × Str) :=
  match splitFirst '\t' line with
  | none => none
  | some kr =>
    match splitFirst ' ' kr.2 with
    | none => some (kr.1, kr.2)
    | some vr => some (kr.1, vr.1)

/-- The tree node of the dictionary: either a compressed leaf holding a
key suffix and its value, or a branching node with an optional value and
a child map. -/
inductive DictNode where
  | leaf (key : Str) (value : Str)
  | node (value : Option Str) (tails : List (Char × DictNode))

/-- First-occurrence lookup in the child map (`HashMap::get`; keys are
unique by construction, so first occurrence is the occurrence). -/
def tailsGet : List (Char × DictNode) → Char → Option DictNode
  | [], _ => none
  | (c, t) :: rest, d => if c = d then some t else tailsGet rest d

/-- Replace the entry for a key in the child map (the
`Entry::Occupied` in-place update in `DictNode::add`). -/
def tailsSet : List (Char × DictNode) → Char → DictNode → List (Char × DictNode)
  | [], d, t => [(d, t)]
  | (c, u) :: rest, d, t =>
    if c = d then (c, t) :: rest else (c, u) :: tailsSet rest d t

/-- Rust `DictNode::node()`: a fresh branching node with no value and no
children. -/
def DictNode.empty : DictNode := .node none []

/-- The leaf-to-node conversion performed at the top of `DictNode::add`
when `self` is a `Leaf`: re-insert the leaf's own key and value (as the
node's value when the key is exhausted, as a single child otherwise),
and pass a `Node` through unchanged.  Returns the node's
`(value, tails)` fields. -/
def DictNode.parts : DictNode → Option Str × List (Char × DictNode)
  | .node v tails => (v, tails)
  | .leaf [] lv => (some lv, [])
  | .leaf (hk :: suffix) lv => (none, [(hk, .leaf suffix lv)])

/-- Rust `DictNode::add`: walk/create the path for `key`; at the terminal
node set (or overwrite) the stored value.  A leaf encountered on the way
is first converted to branching form via `parts`. -/
def DictNode.add : DictNode → Str → Str → DictNode
  | t, [], value => .node (some value) t.parts.2
  | t, hk :: suffix, value =>
    match tailsGet t.parts.2 hk with
    | some child => .node t.parts.1 (tailsSet t.parts.2 hk (DictNode.add child suffix value))
    | none => .node t.parts.1 (t.parts.2 ++ [(hk, .leaf suffix value)])

/-- Rust `DictNode::prefix_match`: longest-prefix lookup.  Returns the
matched prefix of the query together with the stored value, or `none`.
At a leaf the whole stored suffix must match; at a branching node the
recursive result through the child for the query's head character wins
over the node's own value. -/
def DictNode.prefixMatch : DictNode → Str → Option (Str × Str)
  | .leaf key value, query =>
    if List.isPrefixOf key query then some (List.take key.length query, value) else none
  | .node value tails, query =>
    match query with
    | [] => value.map (fun v => (([] : Str), v))
    | hk :: suffix =>
      match tailsGet tails hk with
      | some child =>
        match child.prefixMatch suffix with
        | some pv => some (hk :: pv.1, pv.2)
        | none => value.map (fun v => (([] : Str), v))
      | none => value.map (fun v => (([] : Str), v))

/-- The value stored in the tree for an exact key (the semantic map a
tree denotes); used to state correctness of `add` and `prefixMatch`. -/
def lookupExact : DictNode → Str → Option Str
  | .leaf lk lv, k => if k = lk then some lv else none
  | .node v _, [] => v
  | .node _ tails, c :: cs =>
    match tailsGet tails c with
    | some t => lookupExact t cs
    | none => none

/-- Build a tree by inserting a list of rules in order into a fresh
empty node (the loop body of `Dict::load_lines`). -/
def buildTree (rules : List (Str × Str)) : DictNode :=
  rules.foldl (fun t kv => t.add kv.1 kv.2) DictNode.empty

/-- Last-write-wins map denoted by a rule list: the value of the last
rule whose key is `k`. -/
def assocLast (rules : List (Str × Str)) (k : Str) : Option Str :=
  match rules with
  | [] => none
  | kv :: rest =>
    match assocLast rest k with
    | some v => some v
    | none => if kv.1 = k then some kv.2 else none

/-- Rust `Dict`: an ordered sequence of layer trees (`roots`). -/
structure Dict where
  roots : List DictNode

/-- Rust `Dict::load_lines`: parse each line and insert the resulting rules,
in line order, into one fresh tree; the dictionary has that single
layer. -/
def Dict.load_lines (lines : List Str) : Dict :=
  ⟨[lines.foldl (fun root line =>
      match parseLine line with
      | some kv => root.add kv.1 kv.2
      | none => root) DictNode.empty]⟩

/-- Rust `Dict::load_str`: split the raw text into lines and load them. -/
def Dict.load_str (raw : Str) : Dict :=
  Dict.load_lines (splitLines raw)

/-- Rust `Dict::load`: reads lines from a byte source and loads them; the
I/O and decoding are external, so the model receives the successfully
decoded lines. -/
def Dict.load (lines : List Str) : Dict :=
  Dict.load_lines lines

/-- Rust `Dict::chain`: concatenate the two layer sequences. -/
def Dict.chain (d other : Dict) : Dict :=
  ⟨d.roots ++ other.roots⟩

/-- The rewrite loop of `Dict::replace` with explicit fuel (one unit
per loop iteration).  `none` means the loop did not finish within
`fuel` iterations; since each iteration consumes the matched prefix (or
one character), `fuel = text.length` is enough for every terminating
run, and a run that ever matches an empty prefix repeats that state
forever, so it yields `none` for every fuel. -/
def replaceFuel : Nat → DictNode → Str → Option Str
  | _, _, [] => some []
  | 0, _, _ :: _ => none
  | fuel + 1, dict, c :: rest =>
    match dict.prefixMatch (c :: rest) with
    | some pv => (replaceFuel fuel dict (List.drop pv.1.length (c :: rest))).map
        (fun out => pv.2 ++ out)
    | none => (replaceFuel fuel dict rest).map (fun out => c :: out)

/-- Rust `Dict::replace`: the single-layer rewrite pass. -/
def Dict.replace (dict : DictNode) (text : Str) : Option Str :=
  replaceFuel text.length dict text

/-- The per-iteration consumed-character counts of the rewrite loop:
the matched prefix's length on a match step, `1` on a copy step. -/
def replaceSteps : Nat → DictNode → Str → Option (List Nat)
  | _, _, [] => some []
  | 0, _, _ :: _ => none
  | fuel + 1, dict, c :: rest =>
    match dict.prefixMatch (c :: rest) with
    | some pv => (replaceSteps fuel dict (List.drop pv.1.length (c :: rest))).map
        (fun ns => pv.1.length :: ns)
    | none => (replaceSteps fuel dict rest).map (fun ns => 1 :: ns)

/-- Fold the remaining layers over an intermediate buffer (the `for`
loop of `Dict::replace_all`); a `none` buffer propagates. -/
def runLayers (roots : List DictNode) (buffer : Option Str) : Option Str :=
  roots.foldl (fun acc dict => acc.bind (fun b => Dict.replace dict b)) buffer

/-- Rust `Dict::replace_all`: run the first layer on the input, then each
further layer on the previous output.  The empty-`roots` case is the
`roots[0]` panic in Rust. -/
def Dict.replace_all (d : Dict) (text : Str) : Option Str :=
  match d.roots with
  | [] => none
  | r :: rs => runLayers rs (Dict.replace r text)

/-- The first (and for loaded dictionaries, only) layer tree. -/
def theRoot (d : Dict) : DictNode :=
  d.roots.headD DictNode.empty

/-- The longest-match test key set: A, B, ABC, ABCD. -/
def exRules1 : List (Str × Str) :=
  [("A".toList, "a".toList), ("B".toList, "b".toList),
   ("ABC".toList, "c".toList), ("ABCD".toList, "d".toList)]

/-- The greedy copy-through test rules: A to a, B to b, ABC to xxx. -/
def exRules2 : List (Str × Str) :=
  [("A".toList, "a".toList), ("B".toList, "b".toList), ("ABC".toList, "xxx".toList)]

/-- The tree built from `exRules2`. -/
def exTree2 : DictNode := buildTree exRules2

/-- The dictionary loaded from the `exRules2` rule lines. -/
def exDict2 : Dict := Dict.load_lines ["A\ta".toList, "B\tb".toList, "ABC\txxx".toList]

/-- A one-rule dictionary rewriting A to B. -/
def exDictA : Dict := Dict.load_lines ["A\tB".toList]

/-- A one-rule dictionary rewriting B to C. -/
def exDictB : Dict := Dict.load_lines ["B\tC".toList]

theorem tailsGet_tailsSet (l : List (Char × DictNode)) (d e : Char) (t : DictNode) :
    tailsGet (tailsSet l d t) e = if d = e then some t else tailsGet l e := by
  induction l with
  | nil => by_cases h : d = e <;> simp [tailsSet, tailsGet, h]
  | cons hd rest ih =>
    obtain ⟨c, u⟩ := hd
    by_cases hcd : c = d
    · subst hcd
      by_cases hce : c = e <;> simp [tailsSet, tailsGet, hce]
    · by_cases hce : c = e
      · subst hce
        have hdc : ¬ d = c := fun h => hcd h.symm
        simp [tailsSet, hcd, tailsGet, hdc]
      · simp [tailsSet, hcd, tailsGet, hce, ih]

theorem tailsGet_append (l m : List (Char × DictNode)) (e : Char) :
    tailsGet (l ++ m) e =
      match tailsGet l e with
      | some t => some t
      | none => tailsGet m e := by
  induction l with
  | nil => simp [tailsGet]
  | cons hd rest ih =>
    obtain ⟨c, u⟩ := hd
    by_cases h : c = e <;> simp [tailsGet, h, ih]

theorem lookupExact_parts (t : DictNode) (k : Str) :
    lookupExact (.node t.parts.1 t.parts.2) k = lookupExact t k := by
  match t, k with
  | .node v tails, k => rfl
  | .leaf [] lv, [] => rfl
  | .leaf [] lv, c :: cs => simp [DictNode.parts, lookupExact, tailsGet]
  | .leaf (hk :: suf) lv, [] => simp [DictNode.parts, lookupExact]
  | .leaf (hk :: suf) lv, c :: cs =>
    by_cases h : hk = c
    · subst h
      by_cases hcs : cs = suf <;>
        simp [DictNode.parts, lookupExact, tailsGet, hcs]
    · have hne : ¬ (c :: cs = hk :: suf) := by
        simp only [List.cons.injEq, not_and]
        intro hc
        exact absurd hc.symm h
      simp [DictNode.parts, lookupExact, tailsGet, h, hne]

theorem lookupExact_add (k : Str) : ∀ (t : DictNode) (v k' : Str),
    lookupExact (t.add k v) k' = if k' = k then some v else lookupExact t k' := by
  induction k with
  | nil =>
    intro t v k'
    match k' with
    | [] => simp [DictNode.add, lookupExact]
    | c :: cs =>
      have h := lookupExact_parts t (c :: cs)
      simp only [lookupExact] at h
      simp only [DictNode.add, lookupExact]
      simp [h]
  | cons hk suffix ih =>
    intro t v k'
    cases hget : tailsGet t.parts.2 hk with
    | some child =>
      have hadd : t.add (hk :: suffix) v
          = .node t.parts.1 (tailsSet t.parts.2 hk (child.add suffix v)) := by
        simp [DictNode.add, hget]
      rw [hadd]
      match k' with
      | [] =>
        have h := lookupExact_parts t []
        simp only [lookupExact] at h
        simp [lookupExact, h]
      | c :: cs =>
        simp only [lookupExact, tailsGet_tailsSet]
        by_cases hc : hk = c
        · subst hc
          have h := lookupExact_parts t (hk :: cs)
          simp only [lookupExact, hget] at h
          replace h : lookupExact child cs = lookupExact t (hk :: cs) := h
          simp only [eq_self_iff_true, if_true]
          rw [ih child v cs]
          by_cases hcs : cs = suffix
          · simp [hcs]
          · simp [hcs, h]
        · have h := lookupExact_parts t (c :: cs)
          simp only [lookupExact] at h
          have hne : ¬ (c :: cs = hk :: suffix) := by
            simp only [List.cons.injEq, not_and]
            intro hc2
            exact absurd hc2.symm hc
          simp [hc, hne, h]
    | none =>
      have hadd : t.add (hk :: suffix) v
          = .node t.parts.1 (t.parts.2 ++ [(hk, .leaf suffix v)]) := by
        simp [DictNode.add, hget]
      rw [hadd]
      match k' with
      | [] =>
        have h := lookupExact_parts t []
        simp only [lookupExact] at h
        simp [lookupExact, h]
      | c :: cs =>
        have h := lookupExact_parts t (c :: cs)
        simp only [lookupExact] at h
        simp only [lookupExact, tailsGet_append]
        cases hg : tailsGet t.parts.2 c with
        | some u =>
          rw [hg] at h
          replace h : lookupExact u cs = lookupExact t (c :: cs) := h
          have hne : ¬ (c :: cs = hk :: suffix) := by
            simp only [List.cons.injEq, not_and]
            intro hc2
            subst hc2
            rw [hget] at hg
            cases hg
          simp [hne, h]
        | none =>
          rw [hg] at h
          replace h : (none : Option Str) = lookupExact t (c :: cs) := h
          by_cases hc : hk = c
          · subst hc
            by_cases hcs : cs = suffix
            · simp [tailsGet, lookupExact, hcs]
            · have hne : ¬ (hk :: cs = hk :: suffix) := by simp [hcs]
              simp [tailsGet, lookupExact, hcs, hne, ← h]
          · have hne : ¬ (c :: cs = hk :: suffix) := by
              simp only [List.cons.injEq, not_and]
              intro hc2
              exact absurd hc2.symm hc
            simp [tailsGet, hc, hne, ← h]

theorem lookupExact_empty (k : Str) : lookupExact DictNode.empty k = none := by
  match k with
  | [] => rfl
  | c :: cs => rfl

theorem lookupExact_foldl (rules : List (Str × Str)) : ∀ (t : DictNode) (k : Str),
    lookupExact (rules.foldl (fun t kv => t.add kv.1 kv.2) t) k =
      (match assocLast rules k with
       | some v => some v
       | none => lookupExact t k) := by
  induction rules with
  | nil => intro t k; simp [assocLast]
  | cons kv rest ih =>
    intro t k
    simp only [List.foldl_cons, ih, assocLast, lookupExact_add]
    cases assocLast rest k with
    | some w => rfl
    | none =>
      by_cases h : kv.1 = k
      · simp [h]
      · have h2 : ¬ k = kv.1 := fun hh => h hh.symm
        simp [h, h2]

theorem lookupExact_buildTree (rules : List (Str × Str)) (k : Str) :
    lookupExact (buildTree rules) k = assocLast rules k := by
  rw [buildTree, lookupExact_foldl]
  cases assocLast rules k <;> simp [lookupExact_empty]

theorem assocLast_mem {rules : List (Str × Str)} {k v : Str}
    (h : assocLast rules k = some v) : (k, v) ∈ rules := by
  induction rules with
  | nil => simp [assocLast] at h
  | cons kv rest ih =>
    simp only [assocLast] at h
    cases hr : assocLast rest k with
    | some w =>
      rw [hr] at h
      cases h
      exact List.mem_cons_of_mem _ (ih hr)
    | none =>
      rw [hr] at h
      by_cases hk : kv.1 = k
      · simp only [hk, if_pos rfl] at h
        cases h
        subst hk
        exact List.mem_cons_self _ _
      · simp [hk] at h

theorem assocLast_none_of_ne {rules : List (Str × Str)} {k : Str}
    (h : ∀ kv ∈ rules, kv.1 ≠ k) : assocLast rules k = none := by
  induction rules with
  | nil => rfl
  | cons kv rest ih =>
    simp only [assocLast]
    rw [ih (fun kv2 h2 => h kv2 (List.mem_cons_of_mem _ h2))]
    simp [h kv (List.mem_cons_self _ _)]

theorem load_lines_foldl (lines : List Str) : ∀ t : DictNode,
    lines.foldl (fun root line =>
      match parseLine line with
      | some kv => root.add kv.1 kv.2
      | none => root) t
    = (lines.filterMap parseLine).foldl (fun t kv => t.add kv.1 kv.2) t := by
  induction lines with
  | nil => intro t; rfl
  | cons l rest ih =>
    intro t
    cases h : parseLine l <;> simp [List.filterMap_cons, h, ih]

theorem load_lines_roots (lines : List Str) :
    (Dict.load_lines lines).roots = [buildTree (lines.filterMap parseLine)] := by
  simp [Dict.load_lines, buildTree, load_lines_foldl]

theorem lookupExact_load_lines (lines : List Str) (k : Str) :
    lookupExact (theRoot (Dict.load_lines lines)) k
      = assocLast (lines.filterMap parseLine) k := by
  rw [theRoot, load_lines_roots]
  simp [lookupExact_buildTree]

theorem prefixMatch_none_sound : ∀ (q : Str) (t : DictNode), t.prefixMatch q = none →
    ∀ k : Str, k <+: q → lookupExact t k = none := by
  intro q
  induction q with
  | nil =>
    intro t h k hk
    rw [List.prefix_nil] at hk
    subst hk
    match t with
    | .leaf lk lv =>
      simp only [DictNode.prefixMatch] at h
      by_cases hp : List.isPrefixOf lk []
      · simp [hp] at h
      · rw [ List.isPrefixOf_iff_prefix, List.prefix_nil] at hp
        simp only [lookupExact, if_neg (Ne.symm hp)]
    | .node v tails =>
      simp only [DictNode.prefixMatch] at h
      cases v with
      | none => rfl
      | some w => simp at h
  | cons c suffix ih =>
    intro t h k hk
    match t with
    | .leaf lk lv =>
      simp only [DictNode.prefixMatch] at h
      by_cases hp : List.isPrefixOf lk (c :: suffix)
      · simp [hp] at h
      · simp only [lookupExact]
        by_cases hkl : k = lk
        · subst hkl
          rw [ List.isPrefixOf_iff_prefix] at hp
          exact absurd hk hp
        · simp [hkl]
    | .node v tails =>
      match k, hk with
      | [], _ =>
        show v = none
        cases hg : tailsGet tails c with
        | none =>
          simp only [DictNode.prefixMatch, hg] at h
          cases v with
          | none => rfl
          | some w => simp at h
        | some child =>
          cases hm : child.prefixMatch suffix with
          | some pv =>
            simp only [DictNode.prefixMatch, hg, hm] at h
            exact Option.noConfusion h
          | none =>
            simp only [DictNode.prefixMatch, hg, hm] at h
            cases v with
            | none => rfl
            | some w => simp at h
      | c2 :: ks, hk =>
        obtain ⟨hc, hks⟩ := List.cons_prefix_cons.mp hk
        subst hc
        simp only [lookupExact]
        cases hg : tailsGet tails c2 with
        | none => rfl
        | some child =>
          cases hm : child.prefixMatch suffix with
          | some pv =>
            simp only [DictNode.prefixMatch, hg, hm] at h
            exact Option.noConfusion h
          | none => exact ih child hm ks hks

theorem prefixMatch_some_sound : ∀ (q : Str) (t : DictNode) (p v : Str),
    t.prefixMatch q = some (p, v) →
    p <+: q ∧ lookupExact t p = some v ∧
      ∀ k w : Str, k <+: q → lookupExact t k = some w → k.length ≤ p.length := by
  intro q
  induction q with
  | nil =>
    intro t p v h
    match t with
    | .leaf lk lv =>
      simp only [DictNode.prefixMatch] at h
      by_cases hp : List.isPrefixOf lk []
      · have hp2 := hp
        rw [ List.isPrefixOf_iff_prefix, List.prefix_nil] at hp2
        subst hp2
        rw [if_pos hp] at h
        simp only [List.take_nil, Option.some.injEq, Prod.mk.injEq] at h
        obtain ⟨hp3, hv⟩ := h
        subst hp3; subst hv
        refine ⟨ List.nil_prefix, by simp [lookupExact], ?_⟩
        intro k w hk _
        rw [List.prefix_nil] at hk
        subst hk
        exact Nat.le_refl _
      · simp [hp] at h
    | .node v0 tails =>
      simp only [DictNode.prefixMatch, Option.map_eq_some'] at h
      obtain ⟨w, hw, hpv⟩ := h
      cases hpv
      refine ⟨ List.nil_prefix, by simp [lookupExact, hw], ?_⟩
      intro k w2 hk _
      rw [List.prefix_nil] at hk
      subst hk
      exact Nat.le_refl _
  | cons c suffix ih =>
    intro t p v h
    match t with
    | .leaf lk lv =>
      simp only [DictNode.prefixMatch] at h
      by_cases hp : List.isPrefixOf lk (c :: suffix)
      · rw [if_pos hp, Option.some.injEq, Prod.mk.injEq] at h
        obtain ⟨hp2, hv⟩ := h
        rw [ List.isPrefixOf_iff_prefix] at hp
        have htake : (c :: suffix).take lk.length = lk :=
          (List.prefix_iff_eq_take.mp hp).symm
        rw [htake] at hp2
        subst hp2; subst hv
        refine ⟨hp, by simp [lookupExact], ?_⟩
        intro k w hk hl
        simp only [lookupExact] at hl
        by_cases hkl : k = lk
        · subst hkl; exact Nat.le_refl _
        · simp [hkl] at hl
      · simp [hp] at h
    | .node v0 tails =>
      cases hg : tailsGet tails c with
      | some child =>
        cases hm : child.prefixMatch suffix with
        | some pv =>
          simp only [DictNode.prefixMatch, hg, hm, Option.some.injEq, Prod.mk.injEq] at h
          obtain ⟨hp2, hv⟩ := h
          obtain ⟨ih1, ih2, ih3⟩ := ih child pv.1 pv.2 (by rw [hm])
          subst hp2; subst hv
          refine ⟨List.cons_prefix_cons.mpr ⟨rfl, ih1⟩, by simp [lookupExact, hg, ih2], ?_⟩
          intro k w hk hl
          match k, hk with
          | [], _ => exact Nat.zero_le _
          | k2 :: ks, hk =>
            obtain ⟨hc2, hks⟩ := List.cons_prefix_cons.mp hk
            subst hc2
            simp only [lookupExact, hg] at hl
            have := ih3 ks w hks hl
            simpa using Nat.succ_le_succ this
        | none =>
          simp only [DictNode.prefixMatch, hg, hm, Option.map_eq_some'] at h
          obtain ⟨w, hw, hpv⟩ := h
          cases hpv
          refine ⟨ List.nil_prefix, by simp [lookupExact, hw], ?_⟩
          intro k w2 hk hl
          match k, hk with
          | [], _ => exact Nat.le_refl _
          | k2 :: ks, hk =>
            obtain ⟨hc2, hks⟩ := List.cons_prefix_cons.mp hk
            subst hc2
            simp only [lookupExact, hg] at hl
            rw [prefixMatch_none_sound suffix child hm ks hks] at hl
            cases hl
      | none =>
        simp only [DictNode.prefixMatch, hg, Option.map_eq_some'] at h
        obtain ⟨w, hw, hpv⟩ := h
        cases hpv
        refine ⟨ List.nil_prefix, by simp [lookupExact, hw], ?_⟩
        intro k w2 hk hl
        match k, hk with
        | [], _ => exact Nat.le_refl _
        | k2 :: ks, hk =>
          obtain ⟨hc2, hks⟩ := List.cons_prefix_cons.mp hk
          subst hc2
          simp only [lookupExact, hg] at hl
          cases hl

theorem replaceFuel_nil (f : Nat) (t : DictNode) : replaceFuel f t [] = some [] := by
  cases f <;> rfl

theorem replaceFuel_zero (t : DictNode) (c : Char) (rest : Str) :
    replaceFuel 0 t (c :: rest) = none := rfl

theorem replaceFuel_succ (g : Nat) (t : DictNode) (c : Char) (rest : Str) :
    replaceFuel (g + 1) t (c :: rest) =
      match t.prefixMatch (c :: rest) with
      | some pv => (replaceFuel g t (List.drop pv.1.length (c :: rest))).map
          (fun out => pv.2 ++ out)
      | none => (replaceFuel g t rest).map (fun out => c :: out) := rfl

theorem replaceFuel_mono : ∀ (g f2 : Nat) (t : DictNode) (x r : Str), g ≤ f2 →
    replaceFuel g t x = some r → replaceFuel f2 t x = some r := by
  intro g
  induction g with
  | zero =>
    intro f2 t x r _ h
    match x with
    | [] => rw [replaceFuel_nil] at h; rw [replaceFuel_nil]; exact h
    | c :: rest => exact Option.noConfusion h
  | succ g ih =>
    intro f2 t x r hle h
    match x with
    | [] => rw [replaceFuel_nil] at h; rw [replaceFuel_nil]; exact h
    | c :: rest =>
      match f2 with
      | 0 => exact absurd hle (by omega)
      | g2 + 1 =>
        have hg : g ≤ g2 := by omega
        cases hm : t.prefixMatch (c :: rest) with
        | some pv =>
          simp only [replaceFuel_succ, hm, Option.map_eq_some'] at h ⊢
          obtain ⟨out, hout, hr⟩ := h
          exact ⟨out, ih g2 t _ out hg hout, hr⟩
        | none =>
          simp only [replaceFuel_succ, hm, Option.map_eq_some'] at h ⊢
          obtain ⟨out, hout, hr⟩ := h
          exact ⟨out, ih g2 t rest out hg hout, hr⟩

theorem replaceFuel_stuck (t : DictNode) (c : Char) (rest v : Str)
    (hm : t.prefixMatch (c :: rest) = some ([], v)) :
    ∀ f, replaceFuel f t (c :: rest) = none := by
  intro f
  induction f with
  | zero => rfl
  | succ g ih => simp [replaceFuel_succ, hm, ih]

theorem replaceFuel_none_ge : ∀ (f : Nat) (t : DictNode) (x : Str), x.length ≤ f →
    replaceFuel f t x = none → ∀ f2, replaceFuel f2 t x = none := by
  intro f
  induction f with
  | zero =>
    intro t x hlen h f2
    match x with
    | [] => rw [replaceFuel_nil] at h; exact Option.noConfusion h
    | c :: rest => simp at hlen
  | succ g ih =>
    intro t x hlen h f2
    match x with
    | [] => rw [replaceFuel_nil] at h; exact Option.noConfusion h
    | c :: rest =>
      cases hm : t.prefixMatch (c :: rest) with
      | some pv =>
        obtain ⟨p1, p2⟩ := pv
        simp only [replaceFuel_succ, hm, Option.map_eq_none'] at h
        by_cases hp : p1.length = 0
        · have hp1 : p1 = [] := List.length_eq_zero.mp hp
          subst hp1
          exact replaceFuel_stuck t c rest p2 hm f2
        · have hlen2 : (List.drop p1.length (c :: rest)).length ≤ g := by
            rw [List.length_drop]
            simp only [List.length_cons] at hlen ⊢
            omega
          have hall := ih t _ hlen2 h
          match f2 with
          | 0 => rfl
          | g2 + 1 => simp [replaceFuel_succ, hm, hall g2]
      | none =>
        simp only [replaceFuel_succ, hm, Option.map_eq_none'] at h
        have hlen2 : rest.length ≤ g := by
          simp only [List.length_cons] at hlen
          omega
        have hall := ih t rest hlen2 h
        match f2 with
        | 0 => rfl
        | g2 + 1 => simp [replaceFuel_succ, hm, hall g2]

theorem replace_nil (t : DictNode) : Dict.replace t [] = some [] := rfl

theorem replace_match_step (t : DictNode) (text p v : Str)
    (hm : t.prefixMatch text = some (p, v)) (hp : p ≠ []) :
    Dict.replace t text = (Dict.replace t (text.drop p.length)).map (fun out => v ++ out) := by
  match text with
  | [] =>
    obtain ⟨hpfx, -, -⟩ := prefixMatch_some_sound [] t p v hm
    rw [List.prefix_nil] at hpfx
    exact absurd hpfx hp
  | c :: rest =>
    obtain ⟨hpfx, -, -⟩ := prefixMatch_some_sound _ t p v hm
    have hplen : 1 ≤ p.length := List.length_pos.mpr hp
    rw [Dict.replace, Dict.replace]
    simp only [List.length_cons, replaceFuel_succ, hm]
    have hlen : ((c :: rest).drop p.length).length ≤ rest.length := by
      rw [List.length_drop]
      simp only [List.length_cons]
      omega
    cases hres : replaceFuel ((c :: rest).drop p.length).length t ((c :: rest).drop p.length) with
    | some out =>
      rw [replaceFuel_mono _ _ _ _ _ hlen hres]
    | none =>
      rw [replaceFuel_none_ge _ _ _ (Nat.le_refl _) hres rest.length]

theorem replace_copy_step (t : DictNode) (c : Char) (rest : Str)
    (hm : t.prefixMatch (c :: rest) = none) :
    Dict.replace t (c :: rest) = (Dict.replace t rest).map (fun out => c :: out) := by
  rw [Dict.replace, Dict.replace]
  simp only [List.length_cons, replaceFuel_succ, hm]

theorem replace_total_aux (t : DictNode)
    (hne : ∀ k v : Str, lookupExact t k = some v → k ≠ []) :
    ∀ (n : Nat) (x : Str), x.length ≤ n → ∃ out, Dict.replace t x = some out := by
  intro n
  induction n with
  | zero =>
    intro x hlen
    match x with
    | [] => exact ⟨[], rfl⟩
    | c :: rest => simp at hlen
  | succ g ih =>
    intro x hlen
    match x with
    | [] => exact ⟨[], rfl⟩
    | c :: rest =>
      cases hm : t.prefixMatch (c :: rest) with
      | some pv =>
        obtain ⟨p1, p2⟩ := pv
        obtain ⟨hpfx, hstored, -⟩ := prefixMatch_some_sound _ t p1 p2 hm
        have hp : p1 ≠ [] := hne p1 p2 hstored
        have hplen : 1 ≤ p1.length := List.length_pos.mpr hp
        rw [replace_match_step t _ p1 p2 hm hp]
        have hlen2 : ((c :: rest).drop p1.length).length ≤ g := by
          rw [List.length_drop]
          simp only [List.length_cons] at hlen ⊢
          omega
        obtain ⟨out, hout⟩ := ih _ hlen2
        exact ⟨p2 ++ out, by rw [hout]; rfl⟩
      | none =>
        rw [replace_copy_step t c rest hm]
        have hlen2 : rest.length ≤ g := by
          simp only [List.length_cons] at hlen
          omega
        obtain ⟨out, hout⟩ := ih rest hlen2
        exact ⟨c :: out, by rw [hout]; rfl⟩

theorem replace_total (rules : List (Str × Str))
    (hne : ∀ kv ∈ rules, kv.1 ≠ ([] : Str)) (text : Str) :
    ∃ out, Dict.replace (buildTree rules) text = some out := by
  apply replace_total_aux _ _ text.length text (Nat.le_refl _)
  intro k v hl
  rw [lookupExact_buildTree] at hl
  exact hne (k, v) (assocLast_mem hl)

theorem prefixMatch_empty (q : Str) : DictNode.empty.prefixMatch q = none := by
  match q with
  | [] => rfl
  | c :: rest => rfl

theorem replace_empty_id : ∀ x : Str, Dict.replace DictNode.empty x = some x := by
  intro x
  induction x with
  | nil => rfl
  | cons c rest ih =>
    rw [replace_copy_step _ c rest (prefixMatch_empty _), ih]
    rfl

theorem runLayers_append (l m : List DictNode) (o : Option Str) :
    runLayers (l ++ m) o = runLayers m (runLayers l o) := by
  simp [runLayers, List.foldl_append]

theorem runLayers_none (l : List DictNode) : runLayers l none = none := by
  induction l with
  | nil => rfl
  | cons r rs ih => exact ih

theorem runLayers_nil_input : ∀ l : List DictNode, runLayers l (some []) = some [] := by
  intro l
  induction l with
  | nil => rfl
  | cons r rs ih => exact ih

theorem replace_all_eq_runLayers (d : Dict) (hne : d.roots ≠ []) (text : Str) :
    d.replace_all text = runLayers d.roots (some text) := by
  match d, hne with
  | ⟨[]⟩, hne => exact absurd rfl hne
  | ⟨r :: rs⟩, _ => rfl

theorem replace_all_chain (d1 d2 : Dict) (h1 : d1.roots ≠ []) (h2 : d2.roots ≠ [])
    (text : Str) :
    (d1.chain d2).replace_all text
      = (d1.replace_all text).bind (fun b => d2.replace_all b) := by
  have hchain : (d1.chain d2).roots = d1.roots ++ d2.roots := rfl
  have hne : (d1.chain d2).roots ≠ [] := by
    rw [hchain]
    intro hc
    exact h1 (List.append_eq_nil.mp hc).1
  rw [replace_all_eq_runLayers _ hne, hchain, runLayers_append,
    ← replace_all_eq_runLayers d1 h1]
  cases ho : d1.replace_all text with
  | none => exact runLayers_none _
  | some b => exact replace_all_eq_runLayers d2 h2 b |>.symm

theorem replace_all_nil_input (d : Dict) (h : d.roots ≠ []) : d.replace_all [] = some [] := by
  rw [replace_all_eq_runLayers d h]
  exact runLayers_nil_input _

theorem chain_assoc (d1 d2 d3 : Dict) :
    (d1.chain d2).chain d3 = d1.chain (d2.chain d3) := by
  simp [Dict.chain, List.append_assoc]

theorem replaceSteps_nil (f : Nat) (t : DictNode) : replaceSteps f t [] = some [] := by
  cases f <;> rfl

theorem replaceSteps_succ (g : Nat) (t : DictNode) (c : Char) (rest : Str) :
    replaceSteps (g + 1) t (c :: rest) =
      match t.prefixMatch (c :: rest) with
      | some pv => (replaceSteps g t (List.drop pv.1.length (c :: rest))).map
          (fun ns => pv.1.length :: ns)
      | none => (replaceSteps g t rest).map (fun ns => 1 :: ns) := rfl

theorem replaceSteps_sum : ∀ (f : Nat) (t : DictNode) (x : Str) (ns : List Nat),
    replaceSteps f t x = some ns → ns.sum = x.length := by
  intro f
  induction f with
  | zero =>
    intro t x ns h
    match x with
    | [] => rw [replaceSteps_nil] at h; cases h; rfl
    | c :: rest => exact Option.noConfusion h
  | succ g ih =>
    intro t x ns h
    match x with
    | [] => rw [replaceSteps_nil] at h; cases h; rfl
    | c :: rest =>
      cases hm : t.prefixMatch (c :: rest) with
      | some pv =>
        obtain ⟨p1, p2⟩ := pv
        simp only [replaceSteps_succ, hm, Option.map_eq_some'] at h
        obtain ⟨ns2, hns2, hns⟩ := h
        subst hns
        obtain ⟨hpfx, -, -⟩ := prefixMatch_some_sound _ t p1 p2 hm
        have hle : p1.length ≤ rest.length + 1 := by simpa using hpfx.length_le
        have hsum := ih t _ ns2 hns2
        rw [List.length_drop] at hsum
        simp only [List.sum_cons, hsum, List.length_cons]
        omega
      | none =>
        simp only [replaceSteps_succ, hm, Option.map_eq_some'] at h
        obtain ⟨ns2, hns2, hns⟩ := h
        subst hns
        have hsum := ih t rest ns2 hns2
        simp [List.sum_cons, hsum]
        omega

theorem replaceSteps_isSome : ∀ (f : Nat) (t : DictNode) (x : Str),
    (replaceSteps f t x).isSome = (replaceFuel f t x).isSome := by
  intro f
  induction f with
  | zero =>
    intro t x
    match x with
    | [] => rw [replaceSteps_nil, replaceFuel_nil]; rfl
    | c :: rest => rfl
  | succ g ih =>
    intro t x
    match x with
    | [] => rw [replaceSteps_nil, replaceFuel_nil]; rfl
    | c :: rest =>
      cases hm : t.prefixMatch (c :: rest) with
      | some pv =>
        simp only [replaceSteps_succ, replaceFuel_succ, hm, Option.isSome_map']
        exact ih t _
      | none =>
        simp only [replaceSteps_succ, replaceFuel_succ, hm, Option.isSome_map']
        exact ih t rest

theorem replaceSteps_total (rules : List (Str × Str))
    (hne : ∀ kv ∈ rules, kv.1 ≠ ([] : Str)) (text : Str) :
    ∃ ns, replaceSteps text.length (buildTree rules) text = some ns
      ∧ ns.sum = text.length := by
  obtain ⟨out, hout⟩ := replace_total rules hne text
  have hs : (replaceSteps text.length (buildTree rules) text).isSome := by
    rw [replaceSteps_isSome]
    rw [Dict.replace] at hout
    simp [hout]
  obtain ⟨ns, hns⟩ := Option.isSome_iff_exists.mp hs
  exact ⟨ns, hns, replaceSteps_sum _ _ _ _ hns⟩

theorem splitFirst_before (sep : Char) : ∀ s : Str,
    (match splitFirst sep s with
     | none => s
     | some p => p.1) = s.takeWhile (fun c => c != sep) := by
  intro s
  induction s with
  | nil => rfl
  | cons c cs ih =>
    by_cases h : c = sep
    · subst h
      simp [splitFirst, List.takeWhile_cons]
    · cases hs : splitFirst sep cs with
      | none =>
        rw [hs] at ih
        simp [splitFirst, h, hs, List.takeWhile_cons, ← ih]
      | some p =>
        rw [hs] at ih
        simp [splitFirst, h, hs, List.takeWhile_cons, ← ih]

theorem parseLine_eq (line : Str) :
    parseLine line = (splitFirst '\t' line).map
      (fun p => (p.1, p.2.takeWhile (fun c => c != ' '))) := by
  rw [parseLine]
  cases h : splitFirst '\t' line with
  | none => rfl
  | some kr =>
    simp only [Option.map_some']
    have hb := splitFirst_before ' ' kr.2
    cases hs : splitFirst ' ' kr.2 with
    | none =>
      rw [hs] at hb
      rw [← hb]
    | some vr =>
      rw [hs] at hb
      rw [← hb]

theorem splitFirst_none_iff (sep : Char) : ∀ s : Str, splitFirst sep s = none ↔ sep ∉ s := by
  intro s
  induction s with
  | nil => simp [splitFirst]
  | cons c cs ih =>
    by_cases h : c = sep
    · subst h
      simp [splitFirst]
    · simp [splitFirst, h, Option.map_eq_none', ih, List.mem_cons, Ne.symm h]

theorem load_lines_empty_of_no_rules (lines : List Str)
    (h : ∀ l ∈ lines, parseLine l = none) :
    Dict.load_lines lines = ⟨[DictNode.empty]⟩ := by
  have hroot : (Dict.load_lines lines).roots = [DictNode.empty] := by
    rw [load_lines_roots, List.filterMap_eq_nil_iff.mpr h]
    rfl
  rw [← hroot]

theorem runLayers_total : ∀ roots : List DictNode,
    (∀ r ∈ roots, ∀ k v : Str, lookupExact r k = some v → k ≠ []) →
    ∀ b : Str, ∃ out, runLayers roots (some b) = some out := by
  intro roots
  induction roots with
  | nil => intro _ b; exact ⟨b, rfl⟩
  | cons r rs ih =>
    intro h b
    obtain ⟨out1, hout1⟩ :=
      replace_total_aux r (h r (List.mem_cons_self _ _)) b.length b (Nat.le_refl _)
    have hstep : runLayers (r :: rs) (some b) = runLayers rs (Dict.replace r b) := rfl
    rw [hstep, hout1]
    exact ih (fun r2 h2 => h r2 (List.mem_cons_of_mem _ h2)) out1

theorem replace_all_total (rulesList : List (List (Str × Str)))
    (hne0 : rulesList ≠ [])
    (hne : ∀ rules ∈ rulesList, ∀ kv ∈ rules, kv.1 ≠ ([] : Str)) (text : Str) :
    ∃ out, Dict.replace_all ⟨rulesList.map buildTree⟩ text = some out := by
  have hroots : (Dict.mk (rulesList.map buildTree)).roots ≠ [] := by
    simp [hne0]
  rw [replace_all_eq_runLayers _ hroots]
  apply runLayers_total
  intro r hr k v hl
  simp only [List.mem_map] at hr
  obtain ⟨rules, hrules, hbuild⟩ := hr
  subst hbuild
  rw [lookupExact_buildTree] at hl
  exact hne rules hrules (k, v) (assocLast_mem hl)

/-- C1: longest-prefix lookup returns the value of the longest stored key
that is a prefix of the query, and returns no match exactly when no
stored key is a prefix of the query.  For every tree built by inserting
non-empty keys: a `some (p, v)` result means `p` is a prefix of the
query, `p` is a stored key whose (last-written) value is `v`, and every
stored key that is a prefix of the query is no longer than `p`; the
result is `none` iff no stored key is a prefix of the query; the empty
query never matches.  Concretely, for keys A, B, ABC, ABCD: query
ABCDEFG matches ABCD, A matches A, BXX matches B, and X and DD yield no
match. -/
theorem claim1_longest_match_lookup :
    (∀ (rules : List (Str × Str)) (q : Str), (∀ kv ∈ rules, kv.1 ≠ ([] : Str)) →
      (∀ p v : Str, (buildTree rules).prefixMatch q = some (p, v) →
        p <+: q ∧ assocLast rules p = some v ∧
          ∀ k w : Str, k <+: q → assocLast rules k = some w → k.length ≤ p.length)
      ∧ ((buildTree rules).prefixMatch q = none ↔
          ∀ k : Str, k <+: q → assocLast rules k = none)
      ∧ (buildTree rules).prefixMatch [] = none)
    ∧ (buildTree exRules1).prefixMatch ("ABCDEFG".toList) = some ("ABCD".toList, "d".toList)
    ∧ (buildTree exRules1).prefixMatch ("A".toList) = some ("A".toList, "a".toList)
    ∧ (buildTree exRules1).prefixMatch ("BXX".toList) = some ("B".toList, "b".toList)
    ∧ (buildTree exRules1).prefixMatch ("X".toList) = none
    ∧ (buildTree exRules1).prefixMatch ("DD".toList) = none := by
  constructor
  · intro rules q hne
    refine ⟨?_, ⟨?_, ?_⟩, ?_⟩
    · intro p v h
      obtain ⟨h1, h2, h3⟩ := prefixMatch_some_sound q _ p v h
      rw [lookupExact_buildTree] at h2
      refine ⟨h1, h2, ?_⟩
      intro k w hk hw
      exact h3 k w hk (by rw [lookupExact_buildTree]; exact hw)
    · intro h k hk
      have hl := prefixMatch_none_sound q _ h k hk
      rwa [lookupExact_buildTree] at hl
    · intro hall
      cases hpm : (buildTree rules).prefixMatch q with
      | none => rfl
      | some pv =>
        obtain ⟨p1, p2⟩ := pv
        obtain ⟨h1, h2, -⟩ := prefixMatch_some_sound q _ p1 p2 hpm
        rw [lookupExact_buildTree, hall p1 h1] at h2
        exact Option.noConfusion h2
    · cases hpm : (buildTree rules).prefixMatch [] with
      | none => rfl
      | some pv =>
        obtain ⟨p1, p2⟩ := pv
        obtain ⟨h1, h2, -⟩ := prefixMatch_some_sound [] _ p1 p2 hpm
        rw [List.prefix_nil] at h1
        subst h1
        rw [lookupExact_buildTree, assocLast_none_of_ne hne] at h2
        exact Option.noConfusion h2
  · exact ⟨by decide, by decide, by decide, by decide, by decide⟩

/-- Witness for C1: the example rule set has non-empty keys, and the
no-match characterization holds at query ABCDEFG. -/
theorem claim1_witness :
    (∀ kv ∈ exRules1, kv.1 ≠ ([] : Str)) ∧
      ((buildTree exRules1).prefixMatch ("ABCDEFG".toList) = none ↔
        ∀ k : Str, k <+: "ABCDEFG".toList → assocLast exRules1 k = none) :=
  ⟨by decide,
    (claim1_longest_match_lookup.1 exRules1 ("ABCDEFG".toList) (by decide)).2.1⟩

/-- C2: the single-layer rewrite pass scans left to right; on a match it
appends the match's value and advances by the matched prefix's character
count (the matched key's length, independent of the value's length); on
no match it appends the next input character and advances by one; it
stops on empty text.  Concretely, with rules A to a, B to b, ABC to xxx:
A gives a, AB gives ab, ABC gives xxx, ABABCA gives abxxxa, AXBXAB gives
aXbXab. -/
theorem claim2_rewrite_pass :
    (∀ (t : DictNode) (text p v : Str), t.prefixMatch text = some (p, v) → p ≠ [] →
      Dict.replace t text = (Dict.replace t (text.drop p.length)).map (fun out => v ++ out))
    ∧ (∀ (t : DictNode) (c : Char) (rest : Str), t.prefixMatch (c :: rest) = none →
      Dict.replace t (c :: rest) = (Dict.replace t rest).map (fun out => c :: out))
    ∧ (∀ t : DictNode, Dict.replace t [] = some [])
    ∧ exDict2.replace_all ("A".toList) = some ("a".toList)
    ∧ exDict2.replace_all ("AB".toList) = some ("ab".toList)
    ∧ exDict2.replace_all ("ABC".toList) = some ("xxx".toList)
    ∧ exDict2.replace_all ("ABABCA".toList) = some ("abxxxa".toList)
    ∧ exDict2.replace_all ("AXBXAB".toList) = some ("aXbXab".toList) :=
  ⟨replace_match_step, replace_copy_step, replace_nil,
    by decide, by decide, by decide, by decide, by decide⟩

/-- Witness for C2: the match step at input ABC with matched key ABC and
value xxx. -/
theorem claim2_witness :
    exTree2.prefixMatch ("ABC".toList) = some ("ABC".toList, "xxx".toList) ∧
      Dict.replace exTree2 ("ABC".toList)
        = (Dict.replace exTree2 ("ABC".toList.drop ("ABC".toList).length)).map
            (fun out => "xxx".toList ++ out) :=
  ⟨by decide,
    claim2_rewrite_pass.1 exTree2 ("ABC".toList) "ABC".toList ("xxx".toList)
      (by decide) (by decide)⟩

/-- C3 counterexample: the claim says a line whose value column is empty
after the space-split contributes no rule and leaves the dictionary
unaffected.  In the code, `splitn(2, ' ').next()` on an empty value
column yields `Some("")`, so the line does contribute a rule with an
empty value: loading the lines `A TAB x` and `B TAB` stores the key B
with the empty value, and rewriting the input B erases it instead of
leaving it unchanged. -/
theorem claim3_counterexample :
    lookupExact (theRoot (Dict.load_lines ["A\tx".toList, "B\t".toList])) "B".toList
        = some ([] : Str)
    ∧ (Dict.load_lines ["A\tx".toList, "B\t".toList]).replace_all ("B".toList)
        = some ([] : Str)
    ∧ some ([] : Str) ≠ some ("B".toList) :=
  ⟨by decide, by decide, by decide⟩

/-- C3 amended: during loading, a line with no TAB contributes no rule
and is silently skipped, while a line with a TAB always contributes
exactly one rule whose value is the value column truncated at the first
SPACE (possibly the empty string); rules from well-formed lines in the
same input are still loaded: the loaded dictionary contains exactly the
rules parsed from lines that have a TAB. -/
theorem claim3_amended_malformed_lines :
    (∀ (lines : List Str) (k : Str),
      lookupExact (theRoot (Dict.load_lines lines)) k
        = assocLast (lines.filterMap parseLine) k)
    ∧ (∀ line : Str, parseLine line
        = (splitFirst '\t' line).map
            (fun p => (p.1, p.2.takeWhile (fun c => c != ' '))))
    ∧ (∀ line : Str, splitFirst '\t' line = none ↔ '\t' ∉ line)
    ∧ lookupExact (theRoot (Dict.load_lines
        ["A\tx".toList, "junk".toList, "B\ty".toList])) "A".toList = some ("x".toList)
    ∧ lookupExact (theRoot (Dict.load_lines
        ["A\tx".toList, "junk".toList, "B\ty".toList])) "B".toList = some ("y".toList)
    ∧ lookupExact (theRoot (Dict.load_lines
        ["A\tx".toList, "junk".toList, "B\ty".toList])) "junk".toList = none :=
  ⟨lookupExact_load_lines, parseLine_eq, splitFirst_none_iff '\t',
    by decide, by decide, by decide⟩

/-- C4: the rewrite pass is total.  For every tree built by inserting
only non-empty keys and every input, the single-layer pass finishes
within one loop iteration per input character (each iteration consumes
at least one character), and a dictionary whose layers are all built
from non-empty keys rewrites every input to some output. -/
theorem claim4_totality :
    (∀ rules : List (Str × Str), (∀ kv ∈ rules, kv.1 ≠ ([] : Str)) →
      ∀ text : Str, ∃ out, Dict.replace (buildTree rules) text = some out)
    ∧ (∀ rulesList : List (List (Str × Str)), rulesList ≠ [] →
      (∀ rules ∈ rulesList, ∀ kv ∈ rules, kv.1 ≠ ([] : Str)) →
      ∀ text : Str, ∃ out, Dict.replace_all ⟨rulesList.map buildTree⟩ text = some out) :=
  ⟨replace_total, replace_all_total⟩

/-- Witness for C4 at the example rules and input ABABCA. -/
theorem claim4_witness :
    (∀ kv ∈ exRules2, kv.1 ≠ ([] : Str)) ∧
      ∃ out, Dict.replace (buildTree exRules2) "ABABCA".toList = some out :=
  ⟨by decide, claim4_totality.1 exRules2 (by decide) "ABABCA".toList⟩

/-- C5: chaining concatenates the layer sequences, left operand's layers
first, altering neither operand's trees; consequently the chained
rewrite is the right operand's rewrite applied to the left operand's
output. -/
theorem claim5_chain_compose :
    (∀ d1 d2 : Dict, (d1.chain d2).roots = d1.roots ++ d2.roots)
    ∧ (∀ d1 d2 : Dict, d1.roots ≠ [] → d2.roots ≠ [] → ∀ text : Str,
      (d1.chain d2).replace_all text
        = (d1.replace_all text).bind (fun b => d2.replace_all b)) :=
  ⟨fun _ _ => rfl, replace_all_chain⟩

/-- Witness for C5: the chained one-rule dictionaries A to B and B to C
compose on the input AX. -/
theorem claim5_witness :
    exDictA.roots ≠ [] ∧ exDictB.roots ≠ [] ∧
      (exDictA.chain exDictB).replace_all ("AX".toList)
        = (exDictA.replace_all ("AX".toList)).bind (fun b => exDictB.replace_all b) := by
  have h1 : exDictA.roots ≠ [] := by simp [exDictA, Dict.load_lines]
  have h2 : exDictB.roots ≠ [] := by simp [exDictB, Dict.load_lines]
  exact ⟨h1, h2, claim5_chain_compose.2 exDictA exDictB h1 h2 ("AX".toList)⟩

/-- C6: keys within one tree are unique and a later insertion with the
same key overwrites the earlier value: insertion changes exactly the
inserted key's entry, looking up a key in a built tree returns the value
of the last insertion with that key, and loading the lines `A TAB x`
then `A TAB y` yields a dictionary in which key A matches to y. -/
theorem claim6_overwrite :
    (∀ (t : DictNode) (k v k2 : Str),
      lookupExact (t.add k v) k2 = if k2 = k then some v else lookupExact t k2)
    ∧ (∀ (rules : List (Str × Str)) (k : Str),
      lookupExact (buildTree rules) k = assocLast rules k)
    ∧ (theRoot (Dict.load_str ("A\tx\nA\ty".toList))).prefixMatch ("A".toList)
        = some ("A".toList, "y".toList) :=
  ⟨fun t k v k2 => lookupExact_add k t v k2, lookupExact_buildTree, by decide⟩

/-- C7: a dictionary with no rules is an identity for the rewrite: if no
line of the loaded text contributes a rule, `replace_all` returns every
input unchanged; and every dictionary with at least one layer rewrites
the empty input to the empty output. -/
theorem claim7_empty_dict_identity :
    (∀ lines : List Str, (∀ l ∈ lines, parseLine l = none) →
      ∀ text : Str, (Dict.load_lines lines).replace_all text = some text)
    ∧ (∀ d : Dict, d.roots ≠ [] → d.replace_all [] = some ([] : Str)) := by
  constructor
  · intro lines h text
    rw [load_lines_empty_of_no_rules lines h]
    exact replace_empty_id text
  · exact replace_all_nil_input

/-- Witness for C7: a single tab-less line loads an empty dictionary,
which leaves the input ABC unchanged. -/
theorem claim7_witness :
    (∀ l ∈ ["no tab here".toList], parseLine l = none) ∧
      (Dict.load_lines ["no tab here".toList]).replace_all ("ABC".toList)
        = some ("ABC".toList) :=
  ⟨by decide, claim7_empty_dict_identity.1 ["no tab here".toList] (by decide) "ABC".toList⟩

/-- C8: round-trip consumption invariant: within a single-layer pass the
per-iteration consumed-character counts (matched prefix length on a
match step, one on a copy step) sum to the input's length whenever the
pass finishes; the step trace finishes exactly when the rewrite itself
finishes; and for trees built from non-empty keys the trace exists for
every input. -/
theorem claim8_consumption :
    (∀ (f : Nat) (t : DictNode) (text : Str) (ns : List Nat),
      replaceSteps f t text = some ns → ns.sum = text.length)
    ∧ (∀ (f : Nat) (t : DictNode) (text : Str),
      (replaceSteps f t text).isSome = (replaceFuel f t text).isSome)
    ∧ (∀ rules : List (Str × Str), (∀ kv ∈ rules, kv.1 ≠ ([] : Str)) →
      ∀ text : Str, ∃ ns, replaceSteps text.length (buildTree rules) text = some ns
        ∧ ns.sum = text.length) :=
  ⟨replaceSteps_sum, replaceSteps_isSome, replaceSteps_total⟩

/-- Witness for C8: the pass over ABABCA consumes 1, 1, 3, 1 characters,
summing to the input length 6. -/
theorem claim8_witness :
    replaceSteps 6 exTree2 ("ABABCA".toList) = some [1, 1, 3, 1] ∧
      List.sum [1, 1, 3, 1] = "ABABCA".toList.length :=
  ⟨by decide,
    claim8_consumption.1 6 exTree2 ("ABABCA".toList) [1, 1, 3, 1] (by decide)⟩

/-- C9: chaining is associative in effect: both associations produce the
same layer sequence, and therefore the same rewrite on every input. -/
theorem claim9_chain_assoc :
    ∀ d1 d2 d3 : Dict,
      ((d1.chain d2).chain d3).roots = (d1.chain (d2.chain d3)).roots
      ∧ ∀ text : Str, ((d1.chain d2).chain d3).replace_all text
          = (d1.chain (d2.chain d3)).replace_all text := by
  intro d1 d2 d3
  rw [chain_assoc]
  exact ⟨rfl, fun _ => rfl⟩

/-- C10: `replace_all` never panics on a dictionary produced by the
public constructors: `load_lines`, `load_str` and `load` always produce
exactly one layer and `chain` preserves non-emptiness, so the `roots[0]`
indexing is in bounds; and every matched prefix is a whole-character
prefix of the query, so each byte slice the code takes
(`query[..key.len()]`, `query[..n]`, `text[prefix.len()..]`) lies on a
UTF-8 character boundary. -/
theorem claim10_no_panic :
    (∀ lines : List Str, (Dict.load_lines lines).roots ≠ [])
    ∧ (∀ raw : Str, (Dict.load_str raw).roots ≠ [])
    ∧ (∀ lines : List Str, (Dict.load lines).roots ≠ [])
    ∧ (∀ d1 d2 : Dict, d1.roots ≠ [] → (d1.chain d2).roots ≠ [])
    ∧ (∀ (t : DictNode) (q p v : Str), t.prefixMatch q = some (p, v) → p <+: q) := by
  refine ⟨?_, ?_, ?_, ?_, ?_⟩
  · intro lines
    rw [load_lines_roots]
    simp
  · intro raw
    rw [Dict.load_str, load_lines_roots]
    simp
  · intro lines
    rw [Dict.load, load_lines_roots]
    simp
  · intro d1 d2 h1 hc
    exact h1 (List.append_eq_nil.mp hc).1
  · intro t q p v h
    exact (prefixMatch_some_sound q t p v h).1

/-- Witness for C10: chaining the non-empty example dictionaries keeps a
non-empty layer sequence, and a concrete match returns a true prefix. -/
theorem claim10_witness :
    (exDictA.chain exDictB).roots ≠ [] ∧ "ABC".toList <+: "ABCX".toList := by
  refine ⟨claim10_no_panic.2.2.2.1 exDictA exDictB (claim10_no_panic.1 _), ?_⟩
  exact claim10_no_panic.2.2.2.2 exTree2 ("ABCX".toList) "ABC".toList ("xxx".toList) (by decide)
